import Mathlib

/-!
Verification development for the duplicate-code detector and
consolidation-staging pipeline (scripts/dedupe.py,
scripts/apply_consolidation.py, scripts/auto_consolidate.py).

The Python sources are shallowly embedded as executable Lean functions.
Conventions used throughout:
* file content is a `List String` of raw lines (as produced by `readlines`);
* the SHA-256 digest of `hash_block` is modelled as the exact concatenation
  of the hashed byte stream: `hashlib.sha256` is updated with each line in
  turn, so the digest is a deterministic function of the concatenation of
  the lines, and we abstract the hash as an injective (collision-free)
  function of that concatenation, i.e. the concatenation itself;
* Python's `str.strip` is modelled by `String.trim`, Python's regexes are
  compiled by hand into deterministic character-list matchers with the
  same leftmost/greedy semantics (`re.match` matches a prefix);
* machine integers do not occur (all counts are small naturals);
* the filesystem seen by the stub generator is an association list from
  filename to content; `os.walk` is modelled by the list of
  `(dirpath, filenames)` pairs it enumerates, in order.
-/

namespace MillaDedupe

/-! ## Equivalence Hasher (dedupe.py, hash_block) -/

/-- Model of `hash_block` (dedupe.py lines 27-31).  The Python code feeds
each line's UTF-8 bytes into one SHA-256 state, so the digest is a function
of the concatenation of the lines alone.  We model the digest as that
concatenation, an injective stand-in for the collision-free hash. -/
def hash_block (lines : List String) : String :=
  String.join lines

/-- The concatenated raw content of a block, the exact byte stream that
`hash_block` digests. -/
def blockContent (lines : List String) : String :=
  String.join lines

/-- Two strings differ by substituting exactly one character at one
position (same surrounding text). -/
def oneCharDiff (s t : String) : Prop :=
  ∃ pre c d suf, c ≠ d ∧ s.data = pre ++ c :: suf ∧ t.data = pre ++ d :: suf

/-! ## Block Extractor (dedupe.py, scan_file)

The Python loop walks the lines with index `i`; on a start match it opens a
block, gathers following lines with the inner `while` until a boundary
line, records `(name, digest, i+1, j)` and resumes the outer loop at the
boundary line.  This is the standard one-pass state machine over the lines,
which we embed as a left fold carrying (completed results, open block,
current 0-based index). -/

/-- `[a-zA-Z0-9_]`, the character class of the captured names. -/
def wordChar (c : Char) : Bool := c.isAlphanum || c = '_'

/-- Does `"):"` occur (before any newline), as required by the trailing
`.*\):` of the Python def pattern (`.` does not cross newlines)? -/
def hasCloseParenColon : List Char → Bool
  | [] => false
  | '\n' :: _ => false
  | ')' :: ':' :: _ => true
  | _ :: cs => hasCloseParenColon cs

/-- `NAME\s*\(` : a nonempty `[a-zA-Z0-9_]+` capture, optional whitespace,
then an opening parenthesis; returns the captured name. -/
def nameParen (cs : List Char) : Option String :=
  let nm := cs.takeWhile wordChar
  let r := cs.dropWhile wordChar
  if nm.isEmpty then none
  else
    match r.dropWhile Char.isWhitespace with
    | '(' :: _ => some (String.mk nm)
    | _ => none

/-- `re.match(r"^def\s+([a-zA-Z0-9_]+)\s*\(.*\):", ...)` on a character
list (already stripped). -/
def pyStartAux : List Char → Option String
  | 'd' :: 'e' :: 'f' :: c :: rest =>
    if c.isWhitespace then
      let r1 := (c :: rest).dropWhile Char.isWhitespace
      let nm := r1.takeWhile wordChar
      let r2 := r1.dropWhile wordChar
      if nm.isEmpty then none
      else
        match r2.dropWhile Char.isWhitespace with
        | '(' :: r4 => if hasCloseParenColon r4 then some (String.mk nm) else none
        | _ => none
    else none
  | _ => none

/-- Python start pattern applied to `line.strip()` (dedupe.py line 42). -/
def pyStart (line : String) : Option String :=
  pyStartAux line.trim.data

/-- `re.match(r"^def\s+|^class\s+", nxt.strip())` (dedupe.py line 53). -/
def pyBoundaryAux : List Char → Bool
  | 'd' :: 'e' :: 'f' :: c :: _ => c.isWhitespace
  | 'c' :: 'l' :: 'a' :: 's' :: 's' :: c :: _ => c.isWhitespace
  | _ => false

def pyBoundary (line : String) : Bool :=
  pyBoundaryAux line.trim.data

/-- `^function\s+` keyword test (used by the TS/JS boundary pattern). -/
def fnKw : List Char → Bool
  | 'f' :: 'u' :: 'n' :: 'c' :: 't' :: 'i' :: 'o' :: 'n' :: c :: _ => c.isWhitespace
  | _ => false

/-- `^export\s+function\s+([a-zA-Z0-9_]+)\s*\(` (dedupe.py line 18). -/
def tsFnStart : List Char → Option String
  | 'e' :: 'x' :: 'p' :: 'o' :: 'r' :: 't' :: c :: rest =>
    if c.isWhitespace then
      match (c :: rest).dropWhile Char.isWhitespace with
      | 'f' :: 'u' :: 'n' :: 'c' :: 't' :: 'i' :: 'o' :: 'n' :: c2 :: rest2 =>
        if c2.isWhitespace then nameParen ((c2 :: rest2).dropWhile Char.isWhitespace)
        else none
      | _ => none
    else none
  | _ => none

/-- `^const\s+([a-zA-Z0-9_]+)\s*=\s*\(` (dedupe.py line 19). -/
def tsConstStart : List Char → Option String
  | 'c' :: 'o' :: 'n' :: 's' :: 't' :: c :: rest =>
    if c.isWhitespace then
      let cs := (c :: rest).dropWhile Char.isWhitespace
      let nm := cs.takeWhile wordChar
      let r := cs.dropWhile wordChar
      if nm.isEmpty then none
      else
        match r.dropWhile Char.isWhitespace with
        | '=' :: r2 =>
          match r2.dropWhile Char.isWhitespace with
          | '(' :: _ => some (String.mk nm)
          | _ => none
        | _ => none
    else none
  | _ => none

/-- `^function\s+([a-zA-Z0-9_]+)\s*\(` (dedupe.py line 20). -/
def jsFnStart : List Char → Option String
  | 'f' :: 'u' :: 'n' :: 'c' :: 't' :: 'i' :: 'o' :: 'n' :: c :: rest =>
    if c.isWhitespace then nameParen ((c :: rest).dropWhile Char.isWhitespace)
    else none
  | _ => none

/-- The TS/JS start alternation, in the source's order
(`ts_fn or ts_const_fn or js_fn`, dedupe.py line 44). -/
def tsStart (line : String) : Option String :=
  let t := line.trim.data
  (tsFnStart t).orElse (fun _ => (tsConstStart t).orElse (fun _ => jsFnStart t))

/-- Scan for `=` followed by `\s*\(` somewhere before a newline
(the `.*=\s*\(` tail of the TS boundary pattern). -/
def hasEqWsParen : List Char → Bool
  | [] => false
  | '\n' :: _ => false
  | '=' :: cs =>
    (match cs.dropWhile Char.isWhitespace with
     | '(' :: _ => true
     | _ => false) || hasEqWsParen cs
  | _ :: cs => hasEqWsParen cs

/-- `re.match(r"^(export\s+)?function\s+|^const\s+.*=\s*\(|^class\s+", ...)`
(dedupe.py line 56). -/
def tsBoundaryAux (cs : List Char) : Bool :=
  fnKw cs
  || (match cs with
      | 'e' :: 'x' :: 'p' :: 'o' :: 'r' :: 't' :: c :: rest =>
        c.isWhitespace && fnKw ((c :: rest).dropWhile Char.isWhitespace)
      | _ => false)
  || (match cs with
      | 'c' :: 'o' :: 'n' :: 's' :: 't' :: c :: rest =>
        c.isWhitespace && hasEqWsParen ((c :: rest).dropWhile Char.isWhitespace)
      | _ => false)
  || (match cs with
      | 'c' :: 'l' :: 'a' :: 's' :: 's' :: c :: _ => c.isWhitespace
      | _ => false)

def tsBoundary (line : String) : Bool :=
  tsBoundaryAux line.trim.data

/-- One extracted block: declared name, raw line sequence, 1-indexed
inclusive start and end lines, as appended by dedupe.py line 60
(`results.append((name, hash_block(block), i+1, j, path))`; we carry the
raw block, whose `hash_block` is the stored digest). -/
structure ScanResult where
  name : String
  block : List String
  startLine : Nat
  endLine : Nat
deriving DecidableEq, Repr

/-- The scan state: completed results, the open block (name, start line,
lines so far), and the 0-based index of the next line. -/
structure ScanState where
  done : List ScanResult
  cur : Option (String × Nat × List String)
  idx : Nat
deriving DecidableEq, Repr

/-- One step of the per-file loop of `scan_file` on the next line. -/
def stepScan (sm : String → Option String) (bd : String → Bool)
    (st : ScanState) (l : String) : ScanState :=
  match st.cur with
  | some (nm, sl, blk) =>
    if bd l then
      let done' := st.done ++ [⟨nm, blk, sl, st.idx⟩]
      match sm l with
      | some nm2 => ⟨done', some (nm2, st.idx + 1, [l]), st.idx + 1⟩
      | none => ⟨done', none, st.idx + 1⟩
    else ⟨st.done, some (nm, sl, blk ++ [l]), st.idx + 1⟩
  | none =>
    match sm l with
    | some nm => ⟨st.done, some (nm, st.idx + 1, [l]), st.idx + 1⟩
    | none => ⟨st.done, none, st.idx + 1⟩

/-- Close the still-open block at end of file (the inner `while` of
dedupe.py stops at `j = len(lines)`). -/
def finishScan (lines : List String) (st : ScanState) : List ScanResult :=
  match st.cur with
  | some (nm, sl, blk) => st.done ++ [⟨nm, blk, sl, lines.length⟩]
  | none => st.done

def scanLines (sm : String → Option String) (bd : String → Bool)
    (lines : List String) : List ScanResult :=
  finishScan lines (lines.foldl (stepScan sm bd) ⟨[], none, 0⟩)

/-- Dispatch on the lower-cased extension (dedupe.py lines 41-44):
`.py` uses the Python patterns, the four TS/JS extensions the TS/JS
patterns, anything else never matches. -/
def matchersOf (ext : String) : (String → Option String) × (String → Bool) :=
  if ext = ".py" then (pyStart, pyBoundary)
  else if ext = ".ts" ∨ ext = ".js" ∨ ext = ".tsx" ∨ ext = ".jsx" then (tsStart, tsBoundary)
  else (fun _ => none, fun _ => false)

/-- `scan_file` (dedupe.py lines 33-64), parameterised by the file's
extension and its lines. -/
def scan_file (ext : String) (lines : List String) : List ScanResult :=
  scanLines (matchersOf ext).1 (matchersOf ext).2 lines

/-! ## Grouping by (declared name, digest) (dedupe.py, main, lines 66-77) -/

/-- A block as collected by `main`'s scan loop: the appended tuple is
`(name, hash_block(block), start, end, path)`; we carry the raw block so
that the stored digest is `hash_block block`. -/
structure ScannedBlock where
  name : String
  block : List String
  path : String
  startLine : Nat
  endLine : Nat
deriving DecidableEq, Repr

/-- The occurrence appended to the group, `(path, start, end)`
(dedupe.py line 77). -/
def occOf (b : ScannedBlock) : String × Nat × Nat :=
  (b.path, b.startLine, b.endLine)

/-- The grouping key `(name, h)` (dedupe.py line 76). -/
def keyOf (b : ScannedBlock) : String × String :=
  (b.name, hash_block b.block)

/-- `candidates[key].append(occ)` on an insertion-ordered association list,
the behaviour of `defaultdict(list)`. -/
def addOcc : List ((String × String) × List (String × Nat × Nat)) →
    (String × String) → (String × Nat × Nat) →
    List ((String × String) × List (String × Nat × Nat))
  | [], k, o => [(k, [o])]
  | (k', os) :: m, k, o =>
    if k' = k then (k', os ++ [o]) :: m else (k', os) :: addOcc m k o

/-- The full grouping table built by the walk (dedupe.py lines 67-77),
taking the stream of scanned blocks in discovery order. -/
def buildCandidates (bs : List ScannedBlock) :
    List ((String × String) × List (String × Nat × Nat)) :=
  bs.foldl (fun m b => addOcc m (keyOf b) (occOf b)) []

/-- Lookup in the grouping table. -/
def glookup : List ((String × String) × List (String × Nat × Nat)) →
    (String × String) → Option (List (String × Nat × Nat))
  | [], _ => none
  | (k', os) :: m, k => if k' = k then some os else glookup m k

/-- The occurrences of all blocks with grouping key `k`, in discovery
order. -/
def occsOf (bs : List ScannedBlock) (k : String × String) :
    List (String × Nat × Nat) :=
  (bs.filter (fun b => keyOf b = k)).map occOf

/-- Two scanned blocks are placed in the same DuplicateGroup: some group
of the table contains both their occurrences. -/
def sameGroup (bs : List ScannedBlock) (b1 b2 : ScannedBlock) : Prop :=
  ∃ k os, glookup (buildCandidates bs) k = some os ∧
    occOf b1 ∈ os ∧ occOf b2 ∈ os

/-! ## Candidate Reporter and exit status (dedupe.py, main, lines 78-93) -/

/-- The groups printed as duplicate candidates: exactly those with more
than one occurrence (dedupe.py line 81). -/
def dedupe_report (cands : List ((String × String) × List (String × Nat × Nat))) :
    List ((String × String) × List (String × Nat × Nat)) :=
  cands.filter (fun c => 1 < c.2.length)

def noDupMsg : String := "No obvious duplicates found by conservative scan."

/-- The final line printed by `main` (dedupe.py lines 87-90). -/
def final_message (cands : List ((String × String) × List (String × Nat × Nat))) : String :=
  if (dedupe_report cands).length = 0 then noDupMsg
  else "Found " ++ toString (dedupe_report cands).length ++
    " candidate duplicated functions. Review manually before merging."

structure DedupeOut where
  reported : List ((String × String) × List (String × Nat × Nat))
  message : String
  exitCode : Nat
deriving Repr

/-- The observable outcome of one run of `main` given the grouping table.
`main` returns `None` and the module calls it without `sys.exit`, so the
process exit status is 0 on every run. -/
def dedupe_main (cands : List ((String × String) × List (String × Nat × Nat))) : DedupeOut :=
  ⟨dedupe_report cands, final_message cands, 0⟩

/-! ## Tree Walker (dedupe.py, main, lines 68-74) -/

/-- The directory names whose (separator-prefixed) text is skipped
(dedupe.py line 70). -/
def skipNames : List String := [".git", "node_modules", "venv", "__pycache__"]

/-- `needle` is a prefix of `hay` (character lists). -/
def seqPrefixOf : List Char → List Char → Bool
  | [], _ => true
  | _ :: _, [] => false
  | n :: ns, h :: hs => (n = h) && seqPrefixOf ns hs

/-- `needle` occurs contiguously inside `hay` (Python's `in` on strings). -/
def seqSub (needle : List Char) : List Char → Bool
  | [] => seqPrefixOf needle []
  | h :: hs => seqPrefixOf needle (h :: hs) || seqSub needle hs

/-- `any(skip in dirpath for skip in [os.sep+".git", ...])`
(dedupe.py line 70), with `os.sep = "/"`. -/
def excludedDirpath (dp : String) : Bool :=
  skipNames.any (fun s => seqSub ("/" ++ s).data dp.data)

/-- `suf` is a suffix of `s` (`str.endswith`). -/
def strEndsWith (s suf : String) : Bool :=
  seqPrefixOf suf.data.reverse s.data.reverse

/-- `fn.endswith((".py", ".ts", ".js", ".tsx", ".jsx"))` (dedupe.py line 73). -/
def supportedExt (fn : String) : Bool :=
  [".py", ".ts", ".js", ".tsx", ".jsx"].any (fun e => strEndsWith fn e)

/-- The files selected by `main`'s walk loop, given the `(dirpath,
filenames)` pairs that `os.walk` enumerates (in order): a directory whose
path contains a separator-prefixed skip name contributes nothing, the rest
contribute their supported files joined onto the dirpath. -/
def walkFiles (walk : List (String × List String)) : List String :=
  walk.foldr
    (fun d acc =>
      (if excludedDirpath d.1 then []
       else (d.2.filter supportedExt).map (fun fn => d.1 ++ "/" ++ fn)) ++ acc)
    []

/-! ## Consolidation Planner (apply_consolidation.py) -/

/-- `x.count('/')`, the sort key of `determine_canonical_path`. -/
def countSep (s : String) : Nat :=
  s.data.countP (fun c => c == '/')

/-- Stable insertion keeping earlier elements first among equal keys. -/
def sInsert (x : String) : List String → List String
  | [] => [x]
  | y :: ys => if countSep y < countSep x then y :: sInsert x ys else x :: y :: ys

/-- Model of `sorted(occurrences, key=lambda x: x.count('/'))`: Python's
`sorted` is the stable ascending sort by the key, which this insertion
sort computes. -/
def pySorted (l : List String) : List String :=
  l.foldr sInsert []

/-- `determine_canonical_path` (apply_consolidation.py lines 28-32):
head of the stable sort; `none` models the IndexError on an empty list. -/
def determine_canonical_path (occs : List String) : Option String :=
  (pySorted occs).head?

/-- The first element attaining the minimal `'/'`-count, ties resolved in
favour of the earlier element: the specification-level description of the
canonical choice. -/
def firstMin : List String → Option String
  | [] => none
  | x :: xs =>
    match firstMin xs with
    | none => some x
    | some m => if countSep m < countSep x then some m else some x

/-! ### Decimal digits (for the `<path>:<start>-<end>` pattern) -/

def digitChar (d : Nat) : Char :=
  match d with
  | 0 => '0' | 1 => '1' | 2 => '2' | 3 => '3' | 4 => '4'
  | 5 => '5' | 6 => '6' | 7 => '7' | 8 => '8' | _ => '9'

/-- Decimal digits of `n`, most significant first (the digits Python's
f-string interpolation of a nonnegative int prints). -/
def natDigits (n : Nat) : List Char :=
  if _h : n < 10 then [digitChar n]
  else natDigits (n / 10) ++ [digitChar (n % 10)]
decreasing_by
  exact Nat.div_lt_self (Nat.pos_of_ne_zero (by omega)) (by omega)

/-- `int()` on a digit string. -/
def digitsToNat (ds : List Char) : Nat :=
  ds.foldl (fun a c => 10 * a + (c.toNat - 48)) 0

/-! ### `parse_occurrence` (apply_consolidation.py lines 18-26)

`re.match(r'(.+):(\d+)-(\d+)', occurrence)`: the greedy `(.+)` takes the
longest newline-free prefix after which `:` then one-or-more digits, `-`,
one-or-more digits follow (a prefix match; trailing text is allowed, and
the digit groups take maximal runs).  We implement exactly that
backtracking order: longest path prefix first. -/

/-- Try to read `:(\d+)-(\d+)` at the front of `cs` (trailing characters
permitted), returning the two numeric groups. -/
def trySuffix (cs : List Char) : Option (Nat × Nat) :=
  match cs with
  | ':' :: r1 =>
    if r1.takeWhile Char.isDigit = [] then none
    else
      match r1.dropWhile Char.isDigit with
      | '-' :: r3 =>
        if r3.takeWhile Char.isDigit = [] then none
        else some (digitsToNat (r1.takeWhile Char.isDigit),
          digitsToNat (r3.takeWhile Char.isDigit))
      | _ => none
  | _ => none

/-- Greedy scan: extend the path group as far as possible (never across a
newline), preferring the longest prefix whose remainder matches
`:(\d+)-(\d+)`.  `accRev` holds the path characters consumed so far,
in reverse. -/
def parseAux (accRev : List Char) : List Char → Option (List Char × Nat × Nat)
  | [] => none
  | c :: cs =>
    if c = '\n' then none
    else
      match parseAux (c :: accRev) cs with
      | some r => some r
      | none =>
        match trySuffix cs with
        | some (a, b) => some ((c :: accRev).reverse, a, b)
        | none => none

/-- `parse_occurrence`: `none` models the `(None, None, None)` return. -/
def parse_occurrence (s : String) : Option (String × Nat × Nat) :=
  (parseAux [] s.data).map (fun r => (String.mk r.1, r.2.1, r.2.2))

/-- The serialized occurrence pattern `<path>:<start>-<end>` written by the
reporter (dedupe.py line 85). -/
def formatOcc (p : String) (a b : Nat) : String :=
  p ++ ":" ++ String.mk (natDigits a) ++ "-" ++ String.mk (natDigits b)

/-- One record of the report artifact
(`{ function: string, occurrences: [string, ...] }`). -/
structure CandRec where
  function : String
  occurrences : List String
deriving DecidableEq, Repr

/-- The warning printed for an unparsable canonical occurrence
(apply_consolidation.py line 60). -/
def warnMsg (canonical : String) : String :=
  "Warning: Could not parse occurrence " ++ canonical

/-- The warnings emitted by the Planner's main loop (apply_consolidation.py
lines 48-61): records with fewer than two occurrences are skipped, the
canonical occurrence is chosen, and an unparsable canonical produces the
warning and a `continue`.  Only the warning stream matters to the claims;
the plan text built afterwards cannot fail. -/
def plannerWarnings (cands : List CandRec) : List String :=
  cands.foldr
    (fun c acc =>
      if c.occurrences.length < 2 then acc
      else
        match determine_canonical_path c.occurrences with
        | none => acc
        | some canonical =>
          match parse_occurrence canonical with
          | none => warnMsg canonical :: acc
          | some _ => acc)
    []

/-- The observable outcome of `apply_consolidation.main`: the warning lines
and the exit status.  `main` ends with `return 0` on every path and the
module runs `exit(main())`, so the status is always 0. -/
def apply_main (cands : List CandRec) : List String × Nat :=
  (plannerWarnings cands, 0)

/-! ## Stub Generator (auto_consolidate.py, create_stubs, lines 56-72) -/

/-- `''.join(ch if ch.isalnum() or ch=='_' else '_' for ch in name) or 'fn'`
(auto_consolidate.py line 60): every character that is not alphanumeric or
an underscore is replaced by `'_'`; the `or 'fn'` fallback applies exactly
when the joined string is empty, i.e. when `name` itself is empty.
(`str.isalnum` is modelled by `Char.isAlphanum`.) -/
def safe_name (name : String) : String :=
  let s := String.mk (name.data.map (fun ch => if ch.isAlphanum || ch = '_' then ch else '_'))
  if s = "" then "fn" else s

/-- The text written into a fresh stub (auto_consolidate.py lines 63-71);
note the missing newline after `'# Review occurrences:'`, reproduced
faithfully. -/
def stub_content (c : CandRec) : String :=
  "# Auto-generated consolidation stub for function: " ++ c.function ++ "\n" ++
  "# Review occurrences:" ++
  String.join (c.occurrences.map (fun occ => "#   " ++ occ ++ "\n")) ++
  "\n" ++
  "def " ++ safe_name c.function ++ "(*args, **kwargs):\n" ++
  "    \"\"\"IMPLEMENTATION: merge canonical behavior from occurrences listed above.\"\"\"\n" ++
  "    raise NotImplementedError(\"Consolidate and implement this function based on occurrences\")\n"

/-- The stubs directory as an association list from filename to content;
the first binding for a name is the file's content. -/
def flookup : List (String × String) → String → Option String
  | [], _ => none
  | (k', v) :: fs, k => if k' = k then some v else flookup fs k

/-- Number of directory entries carrying filename `k`. -/
def countKey (fs : List (String × String)) (k : String) : Nat :=
  fs.countP (fun e => e.1 == k)

/-- `create_stubs` (auto_consolidate.py lines 56-72): for each candidate,
derive the sanitized filename `<safe_name>.py` and write the stub only if
no file of that name exists (`if not stub_py.exists()`). -/
def create_stubs (cands : List CandRec) (fs : List (String × String)) :
    List (String × String) :=
  cands.foldl
    (fun fs c =>
      let fname := safe_name c.function ++ ".py"
      match flookup fs fname with
      | some _ => fs
      | none => (fname, stub_content c) :: fs)
    fs

/-! ## Claims: C2, C3, C4 -/

/-- C2: only groups with at least 2 occurrences are reported, and when no
group has at least 2, the report is empty and the distinct
no-duplicates message is emitted. -/
theorem c2_singleton_groups_filtered
    (cands : List ((String × String) × List (String × Nat × Nat))) :
    (∀ g ∈ (dedupe_main cands).reported, 2 ≤ g.2.length) ∧
    ((∀ g ∈ cands, g.2.length < 2) →
      (dedupe_main cands).reported = [] ∧ (dedupe_main cands).message = noDupMsg) := by
  constructor
  · intro g hg
    have h := List.mem_filter.mp hg
    have := h.2
    simp only [decide_eq_true_eq] at this
    omega
  · intro h
    have hnil : dedupe_report cands = [] := by
      apply List.filter_eq_nil_iff.mpr
      intro g hg
      have := h g hg
      simp only [decide_eq_true_eq]
      omega
    refine ⟨hnil, ?_⟩
    show final_message cands = noDupMsg
    rw [final_message, hnil]
    rfl

/-- Witness for C2 at a concrete table: one singleton group is filtered
and the no-duplicates message is produced. -/
theorem c2_singleton_groups_filtered_witness :
    (dedupe_main [(("f", "h"), [("a.py", 1, 2)])]).reported = [] ∧
    (dedupe_main [(("f", "h"), [("a.py", 1, 2)])]).message = noDupMsg :=
  (c2_singleton_groups_filtered [(("f", "h"), [("a.py", 1, 2)])]).2 (by decide)

/-- C3: the canonical occurrence is the head of the stable ascending sort
by `'/'`-count, i.e. the first occurrence (in discovery order) attaining
the minimal separator count; on the spec's example the shallowest path
`a.py:1-5` is selected. -/
theorem c3_canonical_shallowest :
    (∀ occs, determine_canonical_path occs = firstMin occs) ∧
    determine_canonical_path ["apps/x/a.py:1-5", "packages/y/a.py:1-5", "a.py:1-5"] =
      some "a.py:1-5" := by
  constructor
  · intro occs
    induction occs with
    | nil => rfl
    | cons x xs ih =>
      show (sInsert x (pySorted xs)).head? = firstMin (x :: xs)
      have hins : ∀ l, (sInsert x l).head? =
          match l.head? with
          | none => some x
          | some y => if countSep y < countSep x then some y else some x := by
        intro l
        cases l with
        | nil => rfl
        | cons y ys =>
          by_cases h : countSep y < countSep x
          · simp [sInsert, h]
          · simp [sInsert, h]
      rw [hins]
      unfold determine_canonical_path at ih
      rw [ih]
      simp only [firstMin]
  · decide

/-- Witness for C3 at a concrete occurrence list. -/
theorem c3_canonical_shallowest_witness :
    determine_canonical_path ["a/b.py:1-2", "c.py:3-4"] = firstMin ["a/b.py:1-2", "c.py:3-4"] :=
  c3_canonical_shallowest.1 ["a/b.py:1-2", "c.py:3-4"]

/-- Counterexample for C4: a table with one duplicate group on which the
scan's exit status is 0, although the claim requires a non-zero status
whenever a duplicate group was found. -/
theorem c4_exit_cex :
    (dedupe_main [(("f", "h"), [("a.py", 1, 2), ("b.py", 1, 2)])]).reported ≠ [] ∧
    (dedupe_main [(("f", "h"), [("a.py", 1, 2), ("b.py", 1, 2)])]).exitCode = 0 := by
  decide

/-- C4 (amended): the scan's process exit status is 0 on every run,
whether or not duplicates were found; the found/not-found signal is
carried solely by the final message. -/
theorem c4_exit_always_zero
    (cands : List ((String × String) × List (String × Nat × Nat))) :
    (dedupe_main cands).exitCode = 0 ∧
    ((dedupe_main cands).reported ≠ [] ↔ (dedupe_main cands).message ≠ noDupMsg) := by
  refine ⟨rfl, ?_⟩
  show dedupe_report cands ≠ [] ↔ final_message cands ≠ noDupMsg
  by_cases h : (dedupe_report cands).length = 0
  · have hnil : dedupe_report cands = [] := List.length_eq_zero.mp h
    simp [hnil, final_message, h]
  · have hne : dedupe_report cands ≠ [] := by
      intro hnil; rw [hnil] at h; exact h rfl
    have hmsg : final_message cands ≠ noDupMsg := by
      rw [final_message, if_neg h]
      intro heq
      have hdata := congrArg String.data heq
      rw [String.data_append, String.data_append] at hdata
      have hhead := congrArg List.head? hdata
      simp [noDupMsg] at hhead
    simp [hne, hmsg]

/-- Witness for C4 (amended) at a concrete duplicate table. -/
theorem c4_exit_always_zero_witness :
    (dedupe_main [(("g", "h2"), [("a.py", 1, 2), ("b.py", 3, 4)])]).exitCode = 0 ∧
    ((dedupe_main [(("g", "h2"), [("a.py", 1, 2), ("b.py", 3, 4)])]).reported ≠ [] ↔
      (dedupe_main [(("g", "h2"), [("a.py", 1, 2), ("b.py", 3, 4)])]).message ≠ noDupMsg) :=
  c4_exit_always_zero [(("g", "h2"), [("a.py", 1, 2), ("b.py", 3, 4)])]

/-! ## Claim C5 (sanitized stub identifiers) -/

/-- Counterexample for C5: the sanitization does not keep only
alphanumeric/underscore characters and fall back to the placeholder when
nothing is left; it replaces each disallowed character with an
underscore, so the all-symbol name `"+++"` becomes `"___"`, not the
placeholder `"fn"`. -/
theorem c5_sanitize_cex : safe_name "+++" = "___" ∧ safe_name "+++" ≠ "fn" := by
  decide

/-- C5 (amended): sanitization maps every character that is not
alphanumeric or an underscore to `'_'` (length-preserving), so it is empty
only for the empty declared name, which is exactly when the fixed
placeholder `"fn"` is used; every identifier produced is non-empty and
consists only of alphanumerics and underscores. -/
theorem c5_sanitize_total (name : String) :
    safe_name name ≠ "" ∧
    (∀ c ∈ (safe_name name).data, c.isAlphanum = true ∨ c = '_') ∧
    (name = "" → safe_name name = "fn") ∧
    (name ≠ "" → (safe_name name).data =
      name.data.map (fun ch => if ch.isAlphanum || ch = '_' then ch else '_')) := by
  by_cases hn : name = ""
  · subst hn
    exact ⟨by decide, by decide, fun _ => by decide, fun h => absurd rfl h⟩
  · have hdata : name.data ≠ [] := by
      intro h
      apply hn
      cases name with
      | mk l =>
        have hl : l = [] := h
        rw [hl]
    have hmk : String.mk (name.data.map
        (fun ch => if ch.isAlphanum || ch = '_' then ch else '_')) ≠ "" := by
      intro h
      apply hdata
      have h2 : name.data.map
          (fun ch => if ch.isAlphanum || ch = '_' then ch else '_') = [] :=
        congrArg String.data h
      exact List.map_eq_nil_iff.mp h2
    have hsf : safe_name name = String.mk (name.data.map
        (fun ch => if ch.isAlphanum || ch = '_' then ch else '_')) := by
      unfold safe_name
      rw [if_neg hmk]
    refine ⟨?_, ?_, fun h => absurd h hn, fun _ => ?_⟩
    · rw [hsf]; exact hmk
    · intro c hc
      rw [hsf] at hc
      have hc2 : c ∈ name.data.map
          (fun ch => if ch.isAlphanum || ch = '_' then ch else '_') := hc
      rcases List.mem_map.mp hc2 with ⟨ch, -, rfl⟩
      show (if ch.isAlphanum || ch = '_' then ch else '_').isAlphanum = true ∨
        (if ch.isAlphanum || ch = '_' then ch else '_') = '_'
      by_cases h1 : (ch.isAlphanum || ch = '_') = true
      · rw [if_pos h1]
        rcases Bool.or_eq_true_iff.mp h1 with h | h
        · exact Or.inl h
        · exact Or.inr (by simpa using h)
      · rw [if_neg h1]
        exact Or.inr rfl
    · rw [hsf]

/-- Witness for C5 (amended): the empty name gets the placeholder, and a
name with a disallowed character keeps its length with the character
replaced. -/
theorem c5_sanitize_total_witness :
    safe_name "" = "fn" ∧ safe_name "a-b" ≠ "" :=
  ⟨(c5_sanitize_total "").2.2.1 rfl, (c5_sanitize_total "a-b").1⟩

/-! ## Claim C9 (malformed canonical occurrence) -/

/-- Unfolding of the Planner's warning loop on one record. -/
theorem plannerWarnings_cons (c : CandRec) (cs : List CandRec) :
    plannerWarnings (c :: cs) =
      (if c.occurrences.length < 2 then plannerWarnings cs
       else
         match determine_canonical_path c.occurrences with
         | none => plannerWarnings cs
         | some canonical =>
           match parse_occurrence canonical with
           | none => warnMsg canonical :: plannerWarnings cs
           | some _ => plannerWarnings cs) := rfl

theorem plannerWarnings_mem (cands : List CandRec) (c : CandRec) (hc : c ∈ cands)
    (hlen : 2 ≤ c.occurrences.length) (canonical : String)
    (hcan : determine_canonical_path c.occurrences = some canonical)
    (hparse : parse_occurrence canonical = none) :
    warnMsg canonical ∈ plannerWarnings cands := by
  induction cands with
  | nil => cases hc
  | cons c0 cs ih =>
    rw [plannerWarnings_cons]
    rcases List.mem_cons.mp hc with rfl | hmem
    · have h0 : ¬(c.occurrences.length < 2) := by omega
      rw [if_neg h0, hcan]
      show warnMsg canonical ∈
        match parse_occurrence canonical with
        | none => warnMsg canonical :: plannerWarnings cs
        | some _ => plannerWarnings cs
      rw [hparse]
      exact List.mem_cons_self _ _
    · have tail := ih hmem
      split
      · exact tail
      · split
        · exact tail
        · split
          · exact List.mem_cons_of_mem _ tail
          · exact tail

/-- Counterexample for C9: a report whose only record carries the
malformed occurrence `"%%"` twice.  The Planner prints the warning naming
the record's canonical occurrence but the run exits 0, although the claim
requires a non-zero exit. -/
theorem c9_warning_cex :
    (apply_main [⟨"f", ["%%", "%%"]⟩]).1 = [warnMsg "%%"] ∧
    (apply_main [⟨"f", ["%%", "%%"]⟩]).2 = 0 := by
  decide

/-- C9 (amended): a malformed canonical occurrence is surfaced with the
descriptive warning naming it (never silently skipped), but the Planner
run still exits 0 — not with the non-zero status the claim requires. -/
theorem c9_warning_exit_zero (cands : List CandRec) :
    (apply_main cands).2 = 0 ∧
    (∀ c ∈ cands, 2 ≤ c.occurrences.length →
      ∀ canonical, determine_canonical_path c.occurrences = some canonical →
        parse_occurrence canonical = none →
        warnMsg canonical ∈ (apply_main cands).1) :=
  ⟨rfl, fun c hc hlen canonical hcan hparse =>
    plannerWarnings_mem cands c hc hlen canonical hcan hparse⟩

/-- Witness for C9 (amended), at the `"%%"` record. -/
theorem c9_warning_exit_zero_witness :
    warnMsg "%%" ∈ (apply_main [⟨"f", ["%%", "%%"]⟩]).1 ∧
    (apply_main [⟨"f", ["%%", "%%"]⟩]).2 = 0 :=
  ⟨(c9_warning_exit_zero [⟨"f", ["%%", "%%"]⟩]).2 ⟨"f", ["%%", "%%"]⟩ (by decide)
      (by decide) "%%" (by decide) (by decide),
    (c9_warning_exit_zero [⟨"f", ["%%", "%%"]⟩]).1⟩

/-! ## Claim C6 (tree walker exclusion) -/

theorem seqPrefixOf_iff (n : List Char) : ∀ h : List Char,
    seqPrefixOf n h = true ↔ ∃ r, h = n ++ r := by
  induction n with
  | nil =>
    intro h
    simp [seqPrefixOf]
  | cons a ns ih =>
    intro h
    cases h with
    | nil =>
      simp [seqPrefixOf]
    | cons b hs =>
      simp only [seqPrefixOf, Bool.and_eq_true, decide_eq_true_eq, ih]
      constructor
      · rintro ⟨rfl, r, rfl⟩
        exact ⟨r, rfl⟩
      · rintro ⟨r, hr⟩
        injection hr with h1 h2
        exact ⟨h1.symm, r, h2⟩

theorem seqSub_iff (n : List Char) : ∀ h : List Char,
    seqSub n h = true ↔ ∃ l r, h = l ++ n ++ r := by
  intro h
  induction h with
  | nil =>
    simp only [seqSub, seqPrefixOf_iff]
    constructor
    · rintro ⟨r, hr⟩
      exact ⟨[], r, hr⟩
    · rintro ⟨l, r, hr⟩
      rcases List.append_eq_nil.mp hr.symm with ⟨h1, h2⟩
      rcases List.append_eq_nil.mp h1 with ⟨h3, h4⟩
      exact ⟨[], by simp [h4]⟩
  | cons c hs ih =>
    simp only [seqSub, Bool.or_eq_true, seqPrefixOf_iff, ih]
    constructor
    · rintro (⟨r, hr⟩ | ⟨l, r, hr⟩)
      · exact ⟨[], r, hr⟩
      · exact ⟨c :: l, r, by rw [hr]; simp⟩
    · rintro ⟨l, r, hr⟩
      cases l with
      | nil =>
        left
        exact ⟨r, by simpa using hr⟩
      | cons x xs =>
        right
        injection hr with h1 h2
        exact ⟨xs, r, h2⟩

/-- Counterexample for C6: a walk containing the directory
`"/repo/.github"`, none of whose path components (`"repo"`, `".github"`)
is in the excluded set, holding the supported file `a.py` — yet the walker
yields nothing, because the exclusion is a substring test and `"/.git"`
occurs inside `"/repo/.github"`. -/
theorem c6_walker_cex :
    walkFiles [("/repo", []), ("/repo/.github", ["a.py"])] = [] ∧
    "/repo" ++ "/" ++ ".github" = "/repo/.github" ∧
    ".github" ∉ skipNames ∧ "repo" ∉ skipNames ∧
    supportedExt "a.py" = true ∧
    excludedDirpath "/repo/.github" = true := by
  decide

/-- C6 (amended): exclusion is a substring test on the directory path — a
file is yielded exactly when its extension is supported and its
directory's path does not contain `"/" ++ s` for any excluded name `s`;
consequently any directory path with an ancestor component exactly equal
to an excluded name is excluded (as the claim states), but paths whose
components merely extend an excluded name (such as `.github` or `venv2`)
are excluded as well. -/
theorem c6_walker_exclusion :
    (∀ walk f, f ∈ walkFiles walk ↔
      ∃ d ∈ walk, ∃ fn ∈ d.2, supportedExt fn = true ∧
        excludedDirpath d.1 = false ∧ f = d.1 ++ "/" ++ fn) ∧
    (∀ pre post c, c ∈ skipNames →
      excludedDirpath (pre ++ "/" ++ c ++ post) = true) := by
  constructor
  · intro walk f
    induction walk with
    | nil => simp [walkFiles]
    | cons d w ih =>
      have hcons : walkFiles (d :: w) =
          (if excludedDirpath d.1 then []
           else (d.2.filter supportedExt).map (fun fn => d.1 ++ "/" ++ fn)) ++
            walkFiles w := rfl
      rw [hcons]
      simp only [List.mem_append, ih, List.mem_cons]
      constructor
      · rintro (hin | ⟨d', hd', rest⟩)
        · by_cases he : excludedDirpath d.1
          · rw [if_pos he] at hin
            cases hin
          · rw [if_neg he] at hin
            rcases List.mem_map.mp hin with ⟨fn, hfn, rfl⟩
            rcases List.mem_filter.mp hfn with ⟨hmem, hsup⟩
            exact ⟨d, Or.inl rfl, fn, hmem, hsup, Bool.eq_false_iff.mpr he, rfl⟩
        · exact ⟨d', Or.inr hd', rest⟩
      · rintro ⟨d', hd', fn, hfn, hsup, hexc, rfl⟩
        rcases hd' with rfl | hd'
        · left
          rw [if_neg (by rw [hexc]; exact Bool.false_ne_true)]
          exact List.mem_map.mpr ⟨fn, List.mem_filter.mpr ⟨hfn, hsup⟩, rfl⟩
        · right
          exact ⟨d', hd', fn, hfn, hsup, hexc, rfl⟩
  · intro pre post c hc
    have hsub : seqSub ("/" ++ c).data (pre ++ "/" ++ c ++ post).data = true := by
      rw [seqSub_iff]
      refine ⟨pre.data, post.data, ?_⟩
      simp [String.data_append, List.append_assoc]
    unfold excludedDirpath
    rw [List.any_eq_true]
    exact ⟨c, hc, hsub⟩

/-- Witness for C6 (amended): a plain source directory is yielded, and a
path with a genuine `venv` component is excluded. -/
theorem c6_walker_exclusion_witness :
    "/r/src/a.py" ∈ walkFiles [("/r/src", ["a.py"])] ∧
    excludedDirpath ("/x" ++ "/" ++ "venv" ++ "/sub") = true :=
  ⟨(c6_walker_exclusion.1 [("/r/src", ["a.py"])] "/r/src/a.py").mpr
      ⟨("/r/src", ["a.py"]), by decide, "a.py", by decide, by decide, by decide, by decide⟩,
    c6_walker_exclusion.2 "/x" "/sub" "venv" (by decide)⟩

/-! ## Claim C7 (stub generation idempotency) -/

theorem create_stubs_cons (c : CandRec) (cs : List CandRec)
    (fs : List (String × String)) :
    create_stubs (c :: cs) fs =
      create_stubs cs
        (match flookup fs (safe_name c.function ++ ".py") with
         | some _ => fs
         | none => (safe_name c.function ++ ".py", stub_content c) :: fs) := rfl

theorem create_stubs_preserve (cs : List CandRec) :
    ∀ fs k v, flookup fs k = some v → flookup (create_stubs cs fs) k = some v := by
  induction cs with
  | nil => intro fs k v h; exact h
  | cons c cs ih =>
    intro fs k v h
    rw [create_stubs_cons]
    cases hfl : flookup fs (safe_name c.function ++ ".py") with
    | some w => exact ih fs k v h
    | none =>
      apply ih
      show flookup ((safe_name c.function ++ ".py", stub_content c) :: fs) k = some v
      have hne : safe_name c.function ++ ".py" ≠ k := by
        intro he
        rw [he, h] at hfl
        cases hfl
      unfold flookup
      rw [if_neg hne]
      exact h

theorem create_stubs_present (cs : List CandRec) :
    ∀ fs c, c ∈ cs →
      (flookup (create_stubs cs fs) (safe_name c.function ++ ".py")).isSome = true := by
  induction cs with
  | nil => intro fs c h; cases h
  | cons c0 cs ih =>
    intro fs c hc
    rw [create_stubs_cons]
    rcases List.mem_cons.mp hc with rfl | hmem
    · cases hfl : flookup fs (safe_name c.function ++ ".py") with
      | some w =>
        rw [create_stubs_preserve cs fs _ w hfl]
        rfl
      | none =>
        have hnow : flookup ((safe_name c.function ++ ".py", stub_content c) :: fs)
            (safe_name c.function ++ ".py") = some (stub_content c) := by
          unfold flookup
          rw [if_pos rfl]
        rw [create_stubs_preserve cs _ _ _ hnow]
        rfl
    · cases hfl : flookup fs (safe_name c0.function ++ ".py") with
      | some w => exact ih fs c hmem
      | none => exact ih _ c hmem

theorem create_stubs_noop (cs : List CandRec) :
    ∀ fs, (∀ c ∈ cs, (flookup fs (safe_name c.function ++ ".py")).isSome = true) →
      create_stubs cs fs = fs := by
  induction cs with
  | nil => intro fs _; rfl
  | cons c0 cs ih =>
    intro fs h
    rw [create_stubs_cons]
    have h0 := h c0 (List.mem_cons_self _ _)
    cases hfl : flookup fs (safe_name c0.function ++ ".py") with
    | none => rw [hfl] at h0; simp at h0
    | some w =>
      exact ih fs (fun c hc => h c (List.mem_cons_of_mem _ hc))

theorem flookup_none_iff (fs : List (String × String)) (k : String) :
    flookup fs k = none ↔ countKey fs k = 0 := by
  induction fs with
  | nil => simp [flookup, countKey]
  | cons e fs ih =>
    obtain ⟨k0, v0⟩ := e
    unfold flookup countKey
    rw [List.countP_cons]
    by_cases h : k0 = k
    · subst h
      simp
    · rw [if_neg h]
      unfold countKey at ih
      simp only [ih]
      have : ((k0, v0).1 == k) = false := by
        simp [h]
      rw [this]
      simp

theorem countKey_stable (cs : List CandRec) :
    ∀ fs k, 1 ≤ countKey fs k → countKey (create_stubs cs fs) k = countKey fs k := by
  induction cs with
  | nil => intro fs k _; rfl
  | cons c0 cs ih =>
    intro fs k hk
    rw [create_stubs_cons]
    cases hfl : flookup fs (safe_name c0.function ++ ".py") with
    | some w => exact ih fs k hk
    | none =>
      have h0 : countKey fs (safe_name c0.function ++ ".py") = 0 :=
        (flookup_none_iff fs _).mp hfl
      have hne : safe_name c0.function ++ ".py" ≠ k := by
        intro he
        rw [he] at h0
        omega
      have hsame : countKey ((safe_name c0.function ++ ".py", stub_content c0) :: fs) k
          = countKey fs k := by
        unfold countKey
        rw [List.countP_cons]
        have : ((safe_name c0.function ++ ".py", stub_content c0).1 == k) = false := by
          simp [hne]
        rw [this]
        simp
      rw [ih _ k (by rw [hsame]; exact hk), hsame]

theorem countKey_create (cs : List CandRec) :
    ∀ fs k, countKey (create_stubs cs fs) k = countKey fs k ∨
      (countKey fs k = 0 ∧ countKey (create_stubs cs fs) k = 1) := by
  induction cs with
  | nil => intro fs k; left; rfl
  | cons c0 cs ih =>
    intro fs k
    rw [create_stubs_cons]
    cases hfl : flookup fs (safe_name c0.function ++ ".py") with
    | some w => exact ih fs k
    | none =>
      have h0 : countKey fs (safe_name c0.function ++ ".py") = 0 :=
        (flookup_none_iff fs _).mp hfl
      by_cases hk : safe_name c0.function ++ ".py" = k
      · subst hk
        have h1 : countKey ((safe_name c0.function ++ ".py", stub_content c0) :: fs)
            (safe_name c0.function ++ ".py") = 1 := by
          unfold countKey
          rw [List.countP_cons]
          unfold countKey at h0
          rw [h0]
          simp
        right
        refine ⟨h0, ?_⟩
        rw [countKey_stable cs _ _ (le_of_eq h1.symm), h1]
      · have hsame : countKey ((safe_name c0.function ++ ".py", stub_content c0) :: fs) k
            = countKey fs k := by
          unfold countKey
          rw [List.countP_cons]
          have : ((safe_name c0.function ++ ".py", stub_content c0).1 == k) = false := by
            simp [hk]
          rw [this]
          simp
        rcases ih ((safe_name c0.function ++ ".py", stub_content c0) :: fs) k with h | ⟨hz, ho⟩
        · left; rw [h, hsame]
        · right; exact ⟨by rw [← hsame]; exact hz, ho⟩

/-- C7: (i) an existing stub's content survives any generator run
unchanged (for an arbitrary, possibly different, candidate set `cs'`);
(ii) running the generator twice with the same candidates equals running
it once; (iii) starting from an empty stubs directory, two runs leave
exactly one stub file per candidate's sanitized identifier. -/
theorem c7_stub_idempotent (cs cs' : List CandRec) (fs : List (String × String)) :
    (∀ k v, flookup fs k = some v → flookup (create_stubs cs' fs) k = some v) ∧
    create_stubs cs (create_stubs cs fs) = create_stubs cs fs ∧
    (∀ c ∈ cs, countKey (create_stubs cs (create_stubs cs []))
      (safe_name c.function ++ ".py") = 1) := by
  refine ⟨fun k v h => create_stubs_preserve cs' fs k v h, ?_, ?_⟩
  · exact create_stubs_noop cs (create_stubs cs fs)
      (fun c hc => create_stubs_present cs fs c hc)
  · intro c hc
    rw [create_stubs_noop cs (create_stubs cs [])
      (fun c hc => create_stubs_present cs [] c hc)]
    rcases countKey_create cs [] (safe_name c.function ++ ".py") with h | ⟨_, h1⟩
    · exfalso
      have hpres := create_stubs_present cs [] c hc
      have hzero : countKey (create_stubs cs []) (safe_name c.function ++ ".py") = 0 := by
        rw [h]; rfl
      have hnone := (flookup_none_iff _ _).mpr hzero
      rw [hnone] at hpres
      cases hpres
    · exact h1

/-- Witness for C7 at a concrete stubs directory and candidate list. -/
theorem c7_stub_idempotent_witness :
    flookup (create_stubs [⟨"f1", ["a.py:1-2"]⟩] [("f1.py", "edited")]) "f1.py" =
      some "edited" ∧
    countKey (create_stubs [⟨"f1", ["a.py:1-2"]⟩]
        (create_stubs [⟨"f1", ["a.py:1-2"]⟩] []))
      (safe_name "f1" ++ ".py") = 1 :=
  ⟨(c7_stub_idempotent [⟨"f1", ["a.py:1-2"]⟩] [⟨"f1", ["a.py:1-2"]⟩]
      [("f1.py", "edited")]).1 "f1.py" "edited" (by decide),
    (c7_stub_idempotent [⟨"f1", ["a.py:1-2"]⟩] [] []).2.2 ⟨"f1", ["a.py:1-2"]⟩
      (by decide)⟩

/-! ## Claim C1 (grouping by declared name and digest) -/

theorem glookup_addOcc (m : List ((String × String) × List (String × Nat × Nat)))
    (k : String × String) (o : String × Nat × Nat) (k' : String × String) :
    glookup (addOcc m k o) k' =
      if k' = k then some ((glookup m k).getD [] ++ [o]) else glookup m k' := by
  induction m with
  | nil =>
    by_cases h : k' = k
    · subst h
      simp [addOcc, glookup]
    · rw [if_neg h]
      show (if k = k' then some [o] else glookup [] k') = glookup [] k'
      rw [if_neg (fun he => h he.symm)]
  | cons e m ih =>
    obtain ⟨k0, os0⟩ := e
    show glookup (if k0 = k then (k0, os0 ++ [o]) :: m else (k0, os0) :: addOcc m k o) k' = _
    by_cases h0 : k0 = k
    · subst h0
      rw [if_pos rfl]
      show (if k0 = k' then some (os0 ++ [o]) else glookup m k') = _
      by_cases h1 : k' = k0
      · subst h1
        rw [if_pos rfl, if_pos rfl]
        show some (os0 ++ [o]) = some ((if k' = k' then some os0 else glookup m k').getD [] ++ [o])
        rw [if_pos rfl]
        rfl
      · rw [if_neg (fun he => h1 he.symm), if_neg h1]
        show glookup m k' = glookup ((k0, os0) :: m) k'
        show glookup m k' = (if k0 = k' then some os0 else glookup m k')
        rw [if_neg (fun he => h1 he.symm)]
    · rw [if_neg h0]
      show (if k0 = k' then some os0 else glookup (addOcc m k o) k') = _
      by_cases h1 : k0 = k'
      · rw [if_pos h1]
        have hk' : ¬(k' = k) := fun he => h0 (h1.trans he)
        rw [if_neg hk']
        show some os0 = (if k0 = k' then some os0 else glookup m k')
        rw [if_pos h1]
      · rw [if_neg h1, ih]
        by_cases h2 : k' = k
        · rw [if_pos h2, if_pos h2]
          have : glookup ((k0, os0) :: m) k = glookup m k := by
            show (if k0 = k then some os0 else glookup m k) = glookup m k
            rw [if_neg h0]
          rw [this]
        · rw [if_neg h2, if_neg h2]
          show glookup m k' = (if k0 = k' then some os0 else glookup m k')
          rw [if_neg h1]

theorem glookup_build (bs : List ScannedBlock) :
    ∀ m k, glookup (bs.foldl (fun m b => addOcc m (keyOf b) (occOf b)) m) k =
      match glookup m k with
      | some os => some (os ++ occsOf bs k)
      | none => if occsOf bs k = [] then none else some (occsOf bs k) := by
  induction bs with
  | nil =>
    intro m k
    cases h : glookup m k <;> simp [occsOf, h]
  | cons b bs ih =>
    intro m k
    rw [List.foldl_cons, ih, glookup_addOcc]
    by_cases hk : k = keyOf b
    · have hfil : occsOf (b :: bs) k = occOf b :: occsOf bs k := by
        unfold occsOf
        rw [List.filter_cons, if_pos (by simp [hk])]
        rfl
      rw [if_pos hk, hfil, hk]
      cases hm : glookup m (keyOf b) <;> simp [hm]
    · have hfil : occsOf (b :: bs) k = occsOf bs k := by
        unfold occsOf
        rw [List.filter_cons, if_neg (by simp; exact fun he => hk he.symm)]
      rw [if_neg hk, hfil]

theorem glookup_buildCandidates (bs : List ScannedBlock) (k : String × String) :
    glookup (buildCandidates bs) k =
      if occsOf bs k = [] then none else some (occsOf bs k) := by
  have h := glookup_build bs [] k
  exact h

theorem oneCharDiff_ne (s t : String) : oneCharDiff s t → s ≠ t := by
  rintro ⟨pre, c, d, suf, hcd, hs, ht⟩ heq
  rw [heq, ht] at hs
  have h2 := List.append_cancel_left hs
  injection h2 with h3 _
  exact hcd h3.symm

/-- C1: two scanned blocks land in the same DuplicateGroup exactly when
they agree on both declared name and digest; in particular blocks with
identical name and byte-identical line content are always grouped, and
blocks whose concatenated content differs by one substituted character are
never grouped.  The digest is the (injectively modelled) hash of the exact
concatenation of the raw lines.  The hypothesis `hinj` states that
occurrences identify blocks uniquely, which holds for any real scan (two
blocks of one scan differ in path or start line). -/
theorem c1_grouping (bs : List ScannedBlock)
    (hinj : ∀ a ∈ bs, ∀ b ∈ bs, occOf a = occOf b → a = b)
    (b1 b2 : ScannedBlock) (h1 : b1 ∈ bs) (h2 : b2 ∈ bs) :
    (sameGroup bs b1 b2 ↔
      (b1.name = b2.name ∧ hash_block b1.block = hash_block b2.block)) ∧
    (b1.name = b2.name → b1.block = b2.block → sameGroup bs b1 b2) ∧
    (oneCharDiff (blockContent b1.block) (blockContent b2.block) →
      ¬ sameGroup bs b1 b2) := by
  have main : sameGroup bs b1 b2 ↔
      (b1.name = b2.name ∧ hash_block b1.block = hash_block b2.block) := by
    constructor
    · rintro ⟨k, os, hlk, ho1, ho2⟩
      rw [glookup_buildCandidates] at hlk
      by_cases hocc : occsOf bs k = []
      · rw [if_pos hocc] at hlk
        cases hlk
      · rw [if_neg hocc] at hlk
        injection hlk with hos
        subst hos
        have key_of : ∀ b ∈ bs, occOf b ∈ occsOf bs k → keyOf b = k := by
          intro b hb hmem
          unfold occsOf at hmem
          rcases List.mem_map.mp hmem with ⟨a, ha, hao⟩
          rcases List.mem_filter.mp ha with ⟨hamem, hak⟩
          have hab : a = b := hinj a hamem b hb hao
          rw [← hab]
          exact of_decide_eq_true hak
        have hk1 := key_of b1 h1 ho1
        have hk2 := key_of b2 h2 ho2
        have hkk : keyOf b1 = keyOf b2 := hk1.trans hk2.symm
        unfold keyOf at hkk
        exact ⟨congrArg Prod.fst hkk, congrArg Prod.snd hkk⟩
    · rintro ⟨hn, hh⟩
      have hkk : keyOf b1 = keyOf b2 := by
        unfold keyOf
        rw [hn, hh]
      refine ⟨keyOf b1, occsOf bs (keyOf b1), ?_, ?_, ?_⟩
      · have hne : occsOf bs (keyOf b1) ≠ [] := by
          apply List.ne_nil_of_mem (a := occOf b1)
          unfold occsOf
          exact List.mem_map.mpr ⟨b1,
            List.mem_filter.mpr ⟨h1, by simp⟩, rfl⟩
        rw [glookup_buildCandidates, if_neg hne]
      · exact List.mem_map.mpr ⟨b1, List.mem_filter.mpr ⟨h1, by simp⟩, rfl⟩
      · exact List.mem_map.mpr ⟨b2, List.mem_filter.mpr ⟨h2, by simp [hkk]⟩, rfl⟩
  refine ⟨main, ?_, ?_⟩
  · intro hn hb
    exact main.mpr ⟨hn, by rw [hb]⟩
  · intro hdiff hsg
    have hne := oneCharDiff_ne _ _ hdiff
    exact hne ((main.mp hsg).2)

/-- Witness for C1: two byte-identical `f` blocks from different files are
grouped; the grouping key facts evaluate on this concrete scan. -/
theorem c1_grouping_witness :
    (sameGroup
        [⟨"f", ["def f():\n"], "a.py", 1, 1⟩, ⟨"f", ["def f():\n"], "b.py", 1, 1⟩]
        ⟨"f", ["def f():\n"], "a.py", 1, 1⟩ ⟨"f", ["def f():\n"], "b.py", 1, 1⟩ ↔
      ((⟨"f", ["def f():\n"], "a.py", 1, 1⟩ : ScannedBlock).name =
          (⟨"f", ["def f():\n"], "b.py", 1, 1⟩ : ScannedBlock).name ∧
        hash_block [("def f():\n" : String)] = hash_block [("def f():\n" : String)])) ∧
    ((⟨"f", ["def f():\n"], "a.py", 1, 1⟩ : ScannedBlock).name =
        (⟨"f", ["def f():\n"], "b.py", 1, 1⟩ : ScannedBlock).name →
      (["def f():\n"] : List String) = ["def f():\n"] →
      sameGroup
        [⟨"f", ["def f():\n"], "a.py", 1, 1⟩, ⟨"f", ["def f():\n"], "b.py", 1, 1⟩]
        ⟨"f", ["def f():\n"], "a.py", 1, 1⟩ ⟨"f", ["def f():\n"], "b.py", 1, 1⟩) ∧
    (oneCharDiff (blockContent ["def f():\n"]) (blockContent ["def f():\n"]) →
      ¬ sameGroup
        [⟨"f", ["def f():\n"], "a.py", 1, 1⟩, ⟨"f", ["def f():\n"], "b.py", 1, 1⟩]
        ⟨"f", ["def f():\n"], "a.py", 1, 1⟩ ⟨"f", ["def f():\n"], "b.py", 1, 1⟩) :=
  c1_grouping
    [⟨"f", ["def f():\n"], "a.py", 1, 1⟩, ⟨"f", ["def f():\n"], "b.py", 1, 1⟩]
    (by decide)
    ⟨"f", ["def f():\n"], "a.py", 1, 1⟩ ⟨"f", ["def f():\n"], "b.py", 1, 1⟩
    (by decide) (by decide)

/-! ## Claim C8 (occurrence round-trip) -/

theorem digitChar_isDigit (d : Nat) : (digitChar d).isDigit = true := by
  unfold digitChar
  split <;> decide

theorem digitChar_toNat (d : Nat) (h : d < 10) : (digitChar d).toNat - 48 = d := by
  interval_cases d <;> decide

theorem natDigits_ne_nil (n : Nat) : natDigits n ≠ [] := by
  unfold natDigits
  split
  · simp
  · simp

theorem natDigits_digits (n : Nat) : ∀ c ∈ natDigits n, c.isDigit = true := by
  induction n using Nat.strong_induction_on with
  | _ n ih =>
    unfold natDigits
    split
    · intro c hc
      rw [List.mem_singleton] at hc
      rw [hc]
      exact digitChar_isDigit n
    · rename_i h
      intro c hc
      rcases List.mem_append.mp hc with hm | hm
      · exact ih (n / 10) (Nat.div_lt_self (by omega) (by omega)) c hm
      · rw [List.mem_singleton] at hm
        rw [hm]
        exact digitChar_isDigit (n % 10)

theorem digitsToNat_append_one (l : List Char) (c : Char) :
    digitsToNat (l ++ [c]) = 10 * digitsToNat l + (c.toNat - 48) := by
  unfold digitsToNat
  rw [List.foldl_append]
  rfl

theorem digitsToNat_natDigits (n : Nat) : digitsToNat (natDigits n) = n := by
  induction n using Nat.strong_induction_on with
  | _ n ih =>
    unfold natDigits
    split
    · rename_i h
      show digitsToNat [digitChar n] = n
      have : digitsToNat [digitChar n] = 10 * digitsToNat [] + ((digitChar n).toNat - 48) :=
        digitsToNat_append_one [] (digitChar n)
      rw [this, digitChar_toNat n h]
      show 10 * 0 + n = n
      omega
    · rename_i h
      rw [digitsToNat_append_one, ih (n / 10) (Nat.div_lt_self (by omega) (by omega)),
        digitChar_toNat (n % 10) (Nat.mod_lt _ (by omega))]
      omega

theorem takeWhile_all_append (p : Char → Bool) :
    ∀ (l : List Char), (∀ c ∈ l, p c = true) → ∀ (e : Char), p e = false →
      ∀ rest, (l ++ e :: rest).takeWhile p = l ∧ (l ++ e :: rest).dropWhile p = e :: rest := by
  intro l
  induction l with
  | nil =>
    intro _ e he rest
    constructor
    · show (e :: rest).takeWhile p = []
      rw [List.takeWhile_cons, he]
      rfl
    · show (e :: rest).dropWhile p = e :: rest
      rw [List.dropWhile_cons, he]
      rfl
  | cons a l ih =>
    intro hl e he rest
    have ha : p a = true := hl a (List.mem_cons_self _ _)
    have ihl := ih (fun c hc => hl c (List.mem_cons_of_mem _ hc)) e he rest
    constructor
    · show ((a :: (l ++ e :: rest)).takeWhile p) = a :: l
      rw [List.takeWhile_cons, ha]
      simp only [if_true]
      rw [ihl.1]
    · show ((a :: (l ++ e :: rest)).dropWhile p) = e :: rest
      rw [List.dropWhile_cons, ha]
      simp only [if_true]
      exact ihl.2

theorem takeWhile_all (p : Char → Bool) :
    ∀ l : List Char, (∀ c ∈ l, p c = true) → l.takeWhile p = l := by
  intro l
  induction l with
  | nil => intro _; rfl
  | cons a l ih =>
    intro hl
    rw [List.takeWhile_cons, hl a (List.mem_cons_self _ _)]
    simp only [if_true]
    rw [ih (fun c hc => hl c (List.mem_cons_of_mem _ hc))]

theorem trySuffix_correct (ds1 ds2 : List Char)
    (h1 : ∀ c ∈ ds1, c.isDigit = true) (h1n : ds1 ≠ [])
    (h2 : ∀ c ∈ ds2, c.isDigit = true) (h2n : ds2 ≠ []) :
    trySuffix (':' :: (ds1 ++ '-' :: ds2)) =
      some (digitsToNat ds1, digitsToNat ds2) := by
  obtain ⟨htw, hdw⟩ := takeWhile_all_append Char.isDigit ds1 h1 '-' (by decide) ds2
  show (if (ds1 ++ '-' :: ds2).takeWhile Char.isDigit = [] then none
    else
      match (ds1 ++ '-' :: ds2).dropWhile Char.isDigit with
      | '-' :: r3 =>
        if r3.takeWhile Char.isDigit = [] then none
        else some (digitsToNat ((ds1 ++ '-' :: ds2).takeWhile Char.isDigit),
          digitsToNat (r3.takeWhile Char.isDigit))
      | _ => none) = some (digitsToNat ds1, digitsToNat ds2)
  rw [htw, hdw, if_neg h1n]
  show (if ds2.takeWhile Char.isDigit = [] then none
    else some (digitsToNat ds1, digitsToNat (ds2.takeWhile Char.isDigit))) =
    some (digitsToNat ds1, digitsToNat ds2)
  rw [takeWhile_all Char.isDigit ds2 h2, if_neg h2n]

theorem trySuffix_not_colon (cs : List Char) (h : ∀ r, cs ≠ ':' :: r) :
    trySuffix cs = none := by
  unfold trySuffix
  split
  · rename_i r1
    exact absurd rfl (h r1)
  · rfl

theorem parseAux_no_colon (cs : List Char) (h : ':' ∉ cs) :
    ∀ acc, parseAux acc cs = none := by
  induction cs with
  | nil => intro acc; rfl
  | cons c cs ih =>
    intro acc
    show (if c = '\n' then none
      else match parseAux (c :: acc) cs with
      | some r => some r
      | none =>
        match trySuffix cs with
        | some (a, b) => some ((c :: acc).reverse, a, b)
        | none => none) = none
    by_cases hn : c = '\n'
    · rw [if_pos hn]
    · rw [if_neg hn]
      have hcs : ':' ∉ cs := fun hm => h (List.mem_cons_of_mem _ hm)
      rw [ih hcs (c :: acc)]
      have hts : trySuffix cs = none := by
        apply trySuffix_not_colon
        intro r heq
        exact hcs (heq ▸ List.mem_cons_self ':' r)
      rw [hts]

theorem parseAux_format (ds1 ds2 : List Char)
    (h1 : ∀ c ∈ ds1, c.isDigit = true) (h1n : ds1 ≠ [])
    (h2 : ∀ c ∈ ds2, c.isDigit = true) (h2n : ds2 ≠ []) :
    ∀ (p : List Char), p ≠ [] → (∀ c ∈ p, c ≠ '\n') → ∀ (acc : List Char),
      parseAux acc (p ++ ':' :: (ds1 ++ '-' :: ds2)) =
        some (acc.reverse ++ p, digitsToNat ds1, digitsToNat ds2) := by
  have hnocolon : ':' ∉ ds1 ++ '-' :: ds2 := by
    intro hm
    rcases List.mem_append.mp hm with hm | hm
    · have := h1 _ hm
      simp at this
    · rcases List.mem_cons.mp hm with hm | hm
      · exact absurd hm (by decide)
      · have := h2 _ hm
        simp at this
  intro p
  induction p with
  | nil => intro hne _ _; exact absurd rfl hne
  | cons c p' ih =>
    intro _ hnl acc
    have hc : c ≠ '\n' := hnl c (List.mem_cons_self _ _)
    show (if c = '\n' then none
      else match parseAux (c :: acc) (p' ++ ':' :: (ds1 ++ '-' :: ds2)) with
      | some r => some r
      | none =>
        match trySuffix (p' ++ ':' :: (ds1 ++ '-' :: ds2)) with
        | some (a, b) => some ((c :: acc).reverse, a, b)
        | none => none) = some (acc.reverse ++ c :: p', digitsToNat ds1, digitsToNat ds2)
    rw [if_neg hc]
    cases p' with
    | nil =>
      have hinner : parseAux (c :: acc) (':' :: (ds1 ++ '-' :: ds2)) = none := by
        show (if ':' = '\n' then none
          else match parseAux (':' :: c :: acc) (ds1 ++ '-' :: ds2) with
          | some r => some r
          | none =>
            match trySuffix (ds1 ++ '-' :: ds2) with
            | some (a, b) => some ((':' :: c :: acc).reverse, a, b)
            | none => none) = none
        rw [if_neg (by decide)]
        rw [parseAux_no_colon _ hnocolon (':' :: c :: acc)]
        have hts : trySuffix (ds1 ++ '-' :: ds2) = none := by
          apply trySuffix_not_colon
          intro r heq
          exact hnocolon (heq ▸ List.mem_cons_self ':' r)
        rw [hts]
      simp only [List.nil_append]
      rw [hinner]
      rw [trySuffix_correct ds1 ds2 h1 h1n h2 h2n]
      rw [List.reverse_cons]
    | cons c2 p'' =>
      rw [ih (by simp) (fun x hx => hnl x (List.mem_cons_of_mem _ hx)) (c :: acc)]
      rw [List.reverse_cons]
      rw [List.append_assoc]
      rfl

/-- C8: occurrence strings round-trip — formatting any nonempty,
newline-free path with any start/end line numbers as `<path>:<start>-<end>`
and parsing the result with the Planner's `parse_occurrence` recovers
exactly the original components. -/
theorem c8_roundtrip (p : String) (a b : Nat) (hne : p ≠ "")
    (hnl : ∀ c ∈ p.data, c ≠ '\n') :
    parse_occurrence (formatOcc p a b) = some (p, a, b) := by
  have hdata : (formatOcc p a b).data =
      p.data ++ ':' :: (natDigits a ++ '-' :: natDigits b) := by
    unfold formatOcc
    rw [String.data_append, String.data_append, String.data_append,
      String.data_append]
    show p.data ++ [':'] ++ natDigits a ++ ['-'] ++ natDigits b = _
    simp [List.append_assoc]
  have hpne : p.data ≠ [] := by
    intro h
    apply hne
    cases p with
    | mk l =>
      have hl : l = [] := h
      rw [hl]
  unfold parse_occurrence
  rw [hdata]
  rw [parseAux_format (natDigits a) (natDigits b) (natDigits_digits a)
    (natDigits_ne_nil a) (natDigits_digits b) (natDigits_ne_nil b)
    p.data hpne hnl []]
  rw [digitsToNat_natDigits, digitsToNat_natDigits]
  show some (String.mk ([].reverse ++ p.data), a, b) = some (p, a, b)
  cases p with
  | mk l => rfl

/-- Witness for C8 at a concrete occurrence. -/
theorem c8_roundtrip_witness :
    parse_occurrence (formatOcc "apps/x/a.py" 3 17) = some ("apps/x/a.py", 3, 17) :=
  c8_roundtrip "apps/x/a.py" 3 17 (by decide) (by decide)

/-! ## Claim C10 (well-formedness of extracted blocks) -/

/-- A well-formed extraction result for a file with the given lines:
1-indexed start within bounds, start ≤ end ≤ line count, and the block's
first raw line is the file's line at the start position. -/
def wfRes (lines : List String) (r : ScanResult) : Prop :=
  1 ≤ r.startLine ∧ r.startLine ≤ r.endLine ∧ r.endLine ≤ lines.length ∧
    r.block.head? = lines[r.startLine - 1]?

/-- The loop invariant of the per-file scan. -/
def scanInv (lines : List String) (st : ScanState) : Prop :=
  st.idx ≤ lines.length ∧
  (∀ r ∈ st.done, 1 ≤ r.startLine ∧ r.startLine ≤ r.endLine ∧
    r.endLine ≤ st.idx ∧ r.block.head? = lines[r.startLine - 1]?) ∧
  (∀ nm sl blk, st.cur = some (nm, sl, blk) →
    1 ≤ sl ∧ sl ≤ st.idx ∧ blk ≠ [] ∧ blk.head? = lines[sl - 1]?) ∧
  List.Pairwise (fun a b => a.endLine < b.startLine) st.done ∧
  (∀ nm sl blk, st.cur = some (nm, sl, blk) → ∀ r ∈ st.done, r.endLine < sl)

theorem head?_append_left {α : Type} (l1 l2 : List α) (h : l1 ≠ []) :
    (l1 ++ l2).head? = l1.head? := by
  cases l1 with
  | nil => exact absurd rfl h
  | cons a t => rfl

theorem getElem?_eq_head?_drop {α : Type} (l : List α) :
    ∀ n : Nat, l[n]? = (l.drop n).head? := by
  induction l with
  | nil => intro n; simp
  | cons a t ih =>
    intro n
    cases n with
    | zero => simp
    | succ n =>
      rw [List.getElem?_cons_succ, List.drop_succ_cons]
      exact ih n

theorem stepScan_idx (sm : String → Option String) (bd : String → Bool)
    (st : ScanState) (l : String) : (stepScan sm bd st l).idx = st.idx + 1 := by
  unfold stepScan
  obtain ⟨sdone, scur, sidx⟩ := st
  cases scur with
  | none => cases hsm : sm l <;> simp [hsm]
  | some v =>
    obtain ⟨nm, sl, blk⟩ := v
    cases hbd : bd l <;> cases hsm : sm l <;> simp [hbd, hsm]

theorem stepScan_inv (sm : String → Option String) (bd : String → Bool)
    (lines : List String) (st : ScanState) (l : String)
    (hinv : scanInv lines st) (hl : lines[st.idx]? = some l) :
    scanInv lines (stepScan sm bd st l) := by
  obtain ⟨hlen, hdone, hcur, hpw, hlast⟩ := hinv
  obtain ⟨sdone, scur, sidx⟩ := st
  dsimp only at hlen hdone hcur hpw hlast hl
  have hidx : sidx < lines.length := by
    by_contra hge
    rw [getElem?_eq_head?_drop, List.drop_eq_nil_of_le (by omega)] at hl
    cases hl
  cases scur with
  | some v =>
    obtain ⟨nm, sl, blk⟩ := v
    have hcv := hcur nm sl blk rfl
    by_cases hbd : bd l = true
    · have hclosed :
          (∀ r ∈ sdone ++ [(⟨nm, blk, sl, sidx⟩ : ScanResult)],
            1 ≤ r.startLine ∧ r.startLine ≤ r.endLine ∧
            r.endLine ≤ sidx + 1 ∧ r.block.head? = lines[r.startLine - 1]?) := by
        intro r hr
        rcases List.mem_append.mp hr with hr | hr
        · have h := hdone r hr
          exact ⟨h.1, h.2.1, by omega, h.2.2.2⟩
        · rw [List.mem_singleton] at hr
          subst hr
          exact ⟨hcv.1, hcv.2.1, by show sidx ≤ sidx + 1; omega, hcv.2.2.2⟩
      have hpw' : List.Pairwise (fun a b => a.endLine < b.startLine)
          (sdone ++ [(⟨nm, blk, sl, sidx⟩ : ScanResult)]) := by
        rw [List.pairwise_append]
        refine ⟨hpw, List.pairwise_singleton _ _, ?_⟩
        intro a ha b hb
        rw [List.mem_singleton] at hb
        subst hb
        exact hlast nm sl blk rfl a ha
      have hends : ∀ r ∈ sdone ++ [(⟨nm, blk, sl, sidx⟩ : ScanResult)],
          r.endLine < sidx + 1 := by
        intro r hr
        rcases List.mem_append.mp hr with hr | hr
        · have h := hdone r hr
          omega
        · rw [List.mem_singleton] at hr
          subst hr
          show sidx < sidx + 1
          omega
      cases hsm : sm l with
      | some nm2 =>
        have hstep : stepScan sm bd ⟨sdone, some (nm, sl, blk), sidx⟩ l =
            ⟨sdone ++ [⟨nm, blk, sl, sidx⟩], some (nm2, sidx + 1, [l]), sidx + 1⟩ := by
          unfold stepScan
          dsimp only
          rw [hbd, hsm]
          rfl
        rw [hstep]
        dsimp only [scanInv]
        refine ⟨by omega, hclosed, ?_, hpw', ?_⟩
        · intro nm' sl' blk' heq
          injection heq with heq
          injection heq with h1 heq
          injection heq with h2 h3
          subst h1; subst h2; subst h3
          refine ⟨by omega, le_refl _, by simp, ?_⟩
          show some l = lines[sidx + 1 - 1]?
          rw [Nat.add_sub_cancel]
          exact hl.symm
        · intro nm' sl' blk' heq r hr
          injection heq with heq
          injection heq with h1 heq
          injection heq with h2 h3
          subst h2
          exact hends r hr
      | none =>
        have hstep : stepScan sm bd ⟨sdone, some (nm, sl, blk), sidx⟩ l =
            ⟨sdone ++ [⟨nm, blk, sl, sidx⟩], none, sidx + 1⟩ := by
          unfold stepScan
          dsimp only
          rw [hbd, hsm]
          rfl
        rw [hstep]
        dsimp only [scanInv]
        refine ⟨by omega, hclosed, ?_, hpw', ?_⟩
        · intro nm' sl' blk' heq
          cases heq
        · intro nm' sl' blk' heq
          cases heq
    · have hbdf : bd l = false := by
        cases hb2 : bd l with
        | false => rfl
        | true => exact absurd hb2 hbd
      have hstep : stepScan sm bd ⟨sdone, some (nm, sl, blk), sidx⟩ l =
          ⟨sdone, some (nm, sl, blk ++ [l]), sidx + 1⟩ := by
        unfold stepScan
        dsimp only
        rw [hbdf]
        rfl
      rw [hstep]
      dsimp only [scanInv]
      refine ⟨by omega, ?_, ?_, hpw, ?_⟩
      · intro r hr
        have h := hdone r hr
        exact ⟨h.1, h.2.1, by omega, h.2.2.2⟩
      · intro nm' sl' blk' heq
        injection heq with heq
        injection heq with h1 heq
        injection heq with h2 h3
        subst h1; subst h2; subst h3
        refine ⟨hcv.1, by omega, by simp, ?_⟩
        rw [head?_append_left blk [l] hcv.2.2.1]
        exact hcv.2.2.2
      · intro nm' sl' blk' heq r hr
        injection heq with heq
        injection heq with h1 heq
        injection heq with h2 h3
        subst h2
        exact hlast nm sl blk rfl r hr
  | none =>
    cases hsm : sm l with
    | some nm2 =>
      have hstep : stepScan sm bd ⟨sdone, none, sidx⟩ l =
          ⟨sdone, some (nm2, sidx + 1, [l]), sidx + 1⟩ := by
        unfold stepScan
        dsimp only
        rw [hsm]
      rw [hstep]
      dsimp only [scanInv]
      refine ⟨by omega, ?_, ?_, hpw, ?_⟩
      · intro r hr
        have h := hdone r hr
        exact ⟨h.1, h.2.1, by omega, h.2.2.2⟩
      · intro nm' sl' blk' heq
        injection heq with heq
        injection heq with h1 heq
        injection heq with h2 h3
        subst h1; subst h2; subst h3
        refine ⟨by omega, le_refl _, by simp, ?_⟩
        show some l = lines[sidx + 1 - 1]?
        rw [Nat.add_sub_cancel]
        exact hl.symm
      · intro nm' sl' blk' heq r hr
        injection heq with heq
        injection heq with h1 heq
        injection heq with h2 h3
        subst h2
        have h := hdone r hr
        omega
    | none =>
      have hstep : stepScan sm bd ⟨sdone, none, sidx⟩ l =
          ⟨sdone, none, sidx + 1⟩ := by
        unfold stepScan
        dsimp only
        rw [hsm]
      rw [hstep]
      dsimp only [scanInv]
      refine ⟨by omega, ?_, ?_, hpw, ?_⟩
      · intro r hr
        have h := hdone r hr
        exact ⟨h.1, h.2.1, by omega, h.2.2.2⟩
      · intro nm' sl' blk' heq
        cases heq
      · intro nm' sl' blk' heq
        cases heq

theorem finishScan_inv (lines : List String) (st : ScanState)
    (hinv : scanInv lines st) (hidx : st.idx = lines.length) :
    (∀ r ∈ finishScan lines st, wfRes lines r) ∧
    List.Pairwise (fun a b => a.endLine < b.startLine) (finishScan lines st) := by
  obtain ⟨hlen, hdone, hcur, hpw, hlast⟩ := hinv
  obtain ⟨sdone, scur, sidx⟩ := st
  dsimp only at hlen hdone hcur hpw hlast hidx
  have hid : sidx = lines.length := hidx
  cases scur with
  | none =>
    show (∀ r ∈ sdone, wfRes lines r) ∧
      List.Pairwise (fun a b => a.endLine < b.startLine) sdone
    constructor
    · intro r hr
      have h := hdone r hr
      exact ⟨h.1, h.2.1, by omega, h.2.2.2⟩
    · exact hpw
  | some v =>
    obtain ⟨nm, sl, blk⟩ := v
    have hcv := hcur nm sl blk rfl
    show (∀ r ∈ sdone ++ [(⟨nm, blk, sl, lines.length⟩ : ScanResult)], wfRes lines r) ∧
      List.Pairwise (fun a b => a.endLine < b.startLine)
        (sdone ++ [(⟨nm, blk, sl, lines.length⟩ : ScanResult)])
    constructor
    · intro r hr
      rcases List.mem_append.mp hr with hr | hr
      · have h := hdone r hr
        exact ⟨h.1, h.2.1, by omega, h.2.2.2⟩
      · rw [List.mem_singleton] at hr
        subst hr
        exact ⟨hcv.1, by show sl ≤ lines.length; omega, le_refl _, hcv.2.2.2⟩
    · rw [List.pairwise_append]
      refine ⟨hpw, List.pairwise_singleton _ _, ?_⟩
      intro a ha b hb
      rw [List.mem_singleton] at hb
      subst hb
      exact hlast nm sl blk rfl a ha

theorem scan_fold (sm : String → Option String) (bd : String → Bool)
    (lines : List String) :
    ∀ (rest : List String) (st : ScanState), scanInv lines st →
      lines.drop st.idx = rest →
      (∀ r ∈ finishScan lines (rest.foldl (stepScan sm bd) st), wfRes lines r) ∧
      List.Pairwise (fun a b => a.endLine < b.startLine)
        (finishScan lines (rest.foldl (stepScan sm bd) st)) := by
  intro rest
  induction rest with
  | nil =>
    intro st hinv hdrop
    have hle : lines.length ≤ st.idx := by
      by_contra hlt
      rw [List.drop_eq_nil_iff] at hdrop
      omega
    have h1 := hinv.1
    exact finishScan_inv lines st hinv (by omega)
  | cons l rest ih =>
    intro st hinv hdrop
    rw [List.foldl_cons]
    have hl : lines[st.idx]? = some l := by
      rw [getElem?_eq_head?_drop, hdrop]
      rfl
    apply ih (stepScan sm bd st l)
    · exact stepScan_inv sm bd lines st l hinv hl
    · rw [stepScan_idx]
      have ht := congrArg List.tail hdrop
      rw [List.tail_drop] at ht
      exact ht

/-- C10: every block extracted by `scan_file` is well-formed
(`1 ≤ start ≤ end ≤ #lines`, and the block's first raw line is the header
line at its start position), the blocks' line ranges are pairwise disjoint
(each end line lies strictly below every later block's start line), and
start lines are strictly increasing. -/
theorem c10_scan_wellformed (ext : String) (lines : List String) :
    (∀ r ∈ scan_file ext lines, wfRes lines r) ∧
    List.Pairwise (fun a b => a.endLine < b.startLine) (scan_file ext lines) ∧
    List.Pairwise (fun a b => a.startLine < b.startLine) (scan_file ext lines) := by
  have hinv0 : scanInv lines ⟨[], none, 0⟩ := by
    refine ⟨Nat.zero_le _, ?_, ?_, List.Pairwise.nil, ?_⟩
    · intro r hr
      cases hr
    · intro nm sl blk h
      cases h
    · intro nm sl blk h
      cases h
  have h := scan_fold (matchersOf ext).1 (matchersOf ext).2 lines lines
    ⟨[], none, 0⟩ hinv0 (by rw [List.drop_zero])
  refine ⟨h.1, h.2, List.Pairwise.imp_of_mem ?_ h.2⟩
  intro a b ha hb hab
  have hwa := h.1 a ha
  have : a.startLine ≤ a.endLine := hwa.2.1
  omega

/-- Witness for C10 on a concrete two-function Python file. -/
theorem c10_scan_wellformed_witness :
    (∀ r ∈ scan_file ".py" ["def f(x):", "  return 1", "", "def g(y):", "  return 2"],
      wfRes ["def f(x):", "  return 1", "", "def g(y):", "  return 2"] r) ∧
    List.Pairwise (fun a b => a.endLine < b.startLine)
      (scan_file ".py" ["def f(x):", "  return 1", "", "def g(y):", "  return 2"]) ∧
    List.Pairwise (fun a b => a.startLine < b.startLine)
      (scan_file ".py" ["def f(x):", "  return 1", "", "def g(y):", "  return 2"]) :=
  c10_scan_wellformed ".py" ["def f(x):", "  return 1", "", "def g(y):", "  return 2"]

end MillaDedupe
